import Mathlib

/-!
Shallow embedding of the fiddle compiler's codegen pass (`src/codegen.cpp`),
which lowers a small expression AST to LLVM IR.

Modelling conventions:
* `llvm::Value*` results of `codegen` become `Option Value`; a null pointer is `none`.
* The per-function basic block (`context->currentBlock`) becomes an explicit
  `FuncContext` record holding the list of emitted instructions plus a counter
  supplying the identity of each freshly created instruction value.
* `context->identifierMap` (a `std::unordered_map<std::string, std::vector<llvm::Value*>>`)
  becomes a total function `String → List Value`; a name missing from the map and a
  name mapped to an empty vector are observationally identical in the C++
  (`operator[]` default-constructs an empty vector), so both are the empty list.
  Expression lowering only reads the map, so it is passed as a read-only argument;
  `FuncDef::codegen` and `Module::codegen`, which push and pop bindings, thread it
  explicitly.
* `std::abort()` on an unrecognised type token (`getType`) is modelled as
  `Except.error` carrying the token printed in the abort message.
-/

namespace Fiddle

/-- Modelled from the spec: the AST node set of `ast.h` (not under `src/`);
§3 of the spec: IntLiteral(value), VarRef(name), BinOp(operatorSymbol, lhs, rhs),
Call(calleeExpr, ordered argument exprs), Block(ordered sequence of Expr). -/
inductive Expr where
  | intE (val : Int)
  | var (name : String)
  | binOp (name : String) (lhs rhs : Expr)
  | call (functionExpr : Expr) (argumentExprs : List Expr)
  | block (exprs : List Expr)

/-- Modelled from the spec: surface type syntax (`ast.h`): a named type or the unit type. -/
inductive TypeAst where
  | typeName (name : String)
  | unitType
deriving DecidableEq

/-- Modelled from the spec: semantic types (`types.h`): Int(bitWidth, signed) and Unit. -/
inductive Ty where
  | int (width : Nat) (signed : Bool)
  | unit
deriving DecidableEq

/-- LLVM IR values as far as codegen.cpp distinguishes them: integer constants,
formal arguments of a function, functions, and results of emitted instructions. -/
inductive Value where
  | constInt (width : Nat) (bits : Nat)
  | arg (funcName : String) (idx : Nat)
  | func (name : String)
  | inst (id : Nat)
deriving DecidableEq

/-- The four arithmetic instructions BinOpExpr::codegen can emit. -/
inductive BinOpKind where
  | add | sub | mul | sdiv
deriving DecidableEq

/-- Emitted IR instructions. A call instruction stores the possibly-null callee and
argument values exactly as `CreateCall` receives them. -/
inductive Instr where
  | binop (kind : BinOpKind) (lhs rhs : Value) (id : Nat)
  | call (callee : Option Value) (args : List (Option Value)) (id : Nat)
  | ret (val : Option Value)
deriving DecidableEq

/-- `llvm::APInt(numBits, val)`: the C++ argument is converted to `uint64_t`
(reduction mod 2^64) and the APInt keeps the low `numBits` bits. -/
def apIntVal (numBits : Nat) (n : Int) : Nat :=
  (n % (2 : Int) ^ 64).toNat % 2 ^ numBits

/-- The identifier map: per-name stack of bound values, top of stack at the end. -/
abbrev IdentMap := String → List Value

/-- The empty identifier map. -/
def IdentMap.empty : IdentMap := fun _ => []

/-- `map[name].push_back(v)`. -/
def IdentMap.push (m : IdentMap) (x : String) (v : Value) : IdentMap :=
  fun n => if n = x then m n ++ [v] else m n

/-- `map[name].pop_back()`. -/
def IdentMap.pop (m : IdentMap) (x : String) : IdentMap :=
  fun n => if n = x then (m n).dropLast else m n

/-- `Scope.lookup`: the top of the name's stack, `none` when the stack is empty. -/
def IdentMap.lookup (m : IdentMap) (x : String) : Option Value :=
  (m x).getLast?

/-- The mutable part of `FuncContext`: the entry block's instruction list and the
counter giving each newly created instruction value its identity. -/
structure FuncContext where
  currentBlock : List Instr
  nextId : Nat
deriving DecidableEq

/-- `IRBuilder::Create*`: append one instruction to the current block and return the
fresh value it defines. -/
def FuncContext.emit (st : FuncContext) (mk : Nat → Instr) : Option Value × FuncContext :=
  (some (Value.inst st.nextId), ⟨st.currentBlock ++ [mk st.nextId], st.nextId + 1⟩)

mutual

/-- `Expr::codegen(FuncContext*)` for each AST node, from src/codegen.cpp lines 14-71. -/
def Expr.codegen (m : IdentMap) : Expr → FuncContext → Option Value × FuncContext
  | .intE n, st => (some (Value.constInt 32 (apIntVal 32 n)), st)
  | .var name, st =>
      match (m name).getLast? with
      | none => (none, st)
      | some v => (some v, st)
  | .binOp name l r, st =>
      let p1 := Expr.codegen m l st
      let p2 := Expr.codegen m r p1.2
      match p1.1, p2.1 with
      | some left, some right =>
          if name = "+" then p2.2.emit (Instr.binop .add left right)
          else if name = "-" then p2.2.emit (Instr.binop .sub left right)
          else if name = "*" then p2.2.emit (Instr.binop .mul left right)
          else if name = "/" then p2.2.emit (Instr.binop .sdiv left right)
          else (none, p2.2)
      | _, _ => (none, p2.2)
  | .call f argEs, st =>
      let pf := Expr.codegen m f st
      let pa := Expr.codegenList m argEs pf.2
      pa.2.emit (Instr.call pf.1 pa.1)
  | .block exprs, st =>
      Expr.codegenBlock m exprs (some (Value.constInt 32 (apIntVal 32 0))) st

/-- The argument loop of `CallExpr::codegen`: lower each expression left to right,
collecting the (possibly null) values. -/
def Expr.codegenList (m : IdentMap) : List Expr → FuncContext → List (Option Value) × FuncContext
  | [], st => ([], st)
  | e :: es, st =>
      let p := Expr.codegen m e st
      let ps := Expr.codegenList m es p.2
      (p.1 :: ps.1, ps.2)

/-- The loop of `BlockExpr::codegen`: `val` starts as the default zero constant and is
overwritten by each sub-expression's result in turn. -/
def Expr.codegenBlock (m : IdentMap) :
    List Expr → Option Value → FuncContext → Option Value × FuncContext
  | [], val, st => (val, st)
  | e :: es, _, st =>
      let p := Expr.codegen m e st
      Expr.codegenBlock m es p.1 p.2

end

/-- `getType` from src/codegen.cpp lines 73-95: the recognised type names and the unit
type; an unrecognised name prints `unknown type '<name>'` and aborts, modelled as an
error carrying the offending token. -/
def getType : TypeAst → Except String Ty
  | .typeName name =>
      if name = "i8" then .ok (.int 8 true)
      else if name = "i16" then .ok (.int 16 true)
      else if name = "i32" then .ok (.int 32 true)
      else if name = "i64" then .ok (.int 64 true)
      else .error name
  | .unitType => .ok .unit

/-- Modelled from the spec: `FuncProto` of `ast.h` (§3): name, ordered parameter names,
ordered parameter types (length must equal parameter-name count), return type. -/
structure FuncProto where
  name : String
  argNames : List String
  argTypes : List TypeAst
  returnType : TypeAst

/-- Modelled from the spec: `FuncDef` of `ast.h` (§3): a prototype plus a body expression. -/
structure FuncDef where
  proto : FuncProto
  body : Expr

/-- Modelled from the spec: `Module` of `ast.h` (§3): an ordered sequence of FuncDef. -/
structure Module where
  functions : List FuncDef

/-- `codegenProto` (src/codegen.cpp lines 97-110): resolve the return type, then each
argument type in order, and create the function value; a `getType` failure (an abort in
the C++) short-circuits. -/
def codegenProto (proto : FuncProto) : Except String Value :=
  match getType proto.returnType with
  | .error e => .error e
  | .ok _ =>
      match proto.argTypes.mapM getType with
      | .error e => .error e
      | .ok _ => .ok (Value.func proto.name)

/-- A lowered function: its name and the instruction list of its entry block,
ending in the `ret` that `FuncDef::codegen` always emits. -/
structure LoweredFunc where
  name : String
  body : List Instr
deriving DecidableEq

/-- The argument loop of `FuncDef::codegen` (lines 113-117): for the i-th parameter,
push the function's i-th formal argument onto that parameter name's stack. The C++
loop runs over the LLVM function's arguments, whose count equals `argNames.length`
under the FuncProto invariant that parameter names and types have equal length. -/
def bindArgs (funcName : String) : List String → Nat → IdentMap → IdentMap
  | [], _, m => m
  | a :: rest, i, m => bindArgs funcName rest (i + 1) (m.push a (Value.arg funcName i))

/-- The unbinding loop of `FuncDef::codegen` (lines 128-130): pop each parameter
name's stack once. -/
def popArgs : List String → IdentMap → IdentMap
  | [], m => m
  | a :: rest, m => popArgs rest (m.pop a)

/-- `FuncDef::codegen` (src/codegen.cpp lines 112-136): bind the parameters, lower the
body into a fresh entry block, pop the parameter bindings, and emit
`CreateRet(result)` with the (possibly null) body result. -/
def FuncDef.codegen (fd : FuncDef) (m : IdentMap) : LoweredFunc × IdentMap :=
  let m1 := bindArgs fd.proto.name fd.proto.argNames 0 m
  let p := Expr.codegen m1 fd.body ⟨[], 0⟩
  let m2 := popArgs fd.proto.argNames m1
  (⟨fd.proto.name, p.2.currentBlock ++ [Instr.ret p.1]⟩, m2)

/-- Phase 1 of `Module::codegen` (lines 144-148): for every function, create its
prototype and push it onto its name's stack in the identifier map. -/
def declareProtos : List FuncDef → IdentMap → Except String IdentMap
  | [], m => .ok m
  | fd :: fds, m =>
      match codegenProto fd.proto with
      | .error e => .error e
      | .ok llfunc => declareProtos fds (m.push fd.proto.name llfunc)

/-- Phase 2 of `Module::codegen` (lines 150-152): lower every function body in order,
threading the identifier map. -/
def lowerBodies : List FuncDef → IdentMap → List LoweredFunc × IdentMap
  | [], m => ([], m)
  | fd :: fds, m =>
      let p := fd.codegen m
      let ps := lowerBodies fds p.2
      (p.1 :: ps.1, ps.2)

/-- `Module::codegen` (src/codegen.cpp lines 138-157): declare all prototypes, then
lower all bodies. -/
def Module.codegen (mod : Module) : Except String (List LoweredFunc) :=
  match declareProtos mod.functions IdentMap.empty with
  | .error e => .error e
  | .ok m => .ok (lowerBodies mod.functions m).1

/-! ### Helper lemmas -/

/-- Truncating the 64-bit conversion of `n` to 32 bits is reduction of `n` mod `2^32`. -/
theorem apIntVal_32_eq (n : Int) : apIntVal 32 n = (n % 2 ^ 32).toNat := by
  unfold apIntVal
  have hd : ((2 : Int) ^ 32) ∣ (2 : Int) ^ 64 := pow_dvd_pow 2 (by norm_num)
  have h := Int.emod_emod_of_dvd n hd
  have h0 : (0 : Int) ≤ n % 2 ^ 64 := Int.emod_nonneg n (by norm_num)
  have h1 : (0 : Int) ≤ n % 2 ^ 32 := Int.emod_nonneg n (by norm_num)
  norm_num at h h0 h1 ⊢
  omega

/-- Iterated `pop_back`. -/
def popN : Nat → List Value → List Value
  | 0, l => l
  | n + 1, l => popN n l.dropLast

/-- The values `bindArgs` pushes onto the stack of the name `x`. -/
def pushesFor (funcName : String) : List String → Nat → String → List Value
  | [], _, _ => []
  | a :: rest, i, x =>
      (if x = a then [Value.arg funcName i] else []) ++ pushesFor funcName rest (i + 1) x

/-- Popping as many values as were appended restores the original list. -/
theorem popN_append (l2 l1 : List Value) : popN l2.length (l1 ++ l2) = l1 := by
  induction l2 using List.reverseRecOn generalizing l1 with
  | nil => simp [popN]
  | append_singleton l2 v ih =>
      have hdrop : (l1 ++ (l2 ++ [v])).dropLast = l1 ++ l2 := by
        rw [← List.append_assoc]
        exact List.dropLast_concat
      simp only [List.length_append, List.length_singleton, popN, hdrop]
      exact ih l1

/-- `bindArgs` appends `pushesFor` to each name's stack. -/
theorem bindArgs_apply (funcName : String) (names : List String) :
    ∀ (i : Nat) (m : IdentMap) (x : String),
      bindArgs funcName names i m x = m x ++ pushesFor funcName names i x := by
  induction names with
  | nil => intro i m x; simp [bindArgs, pushesFor]
  | cons a rest ih =>
      intro i m x
      simp only [bindArgs, pushesFor, ih]
      by_cases h : x = a <;> simp [IdentMap.push, h]

/-- `bindArgs` pushes onto `x`'s stack once per occurrence of `x` among the names. -/
theorem pushesFor_length (funcName : String) (names : List String) :
    ∀ (i : Nat) (x : String), (pushesFor funcName names i x).length = names.count x := by
  induction names with
  | nil => intro i x; simp [pushesFor]
  | cons a rest ih =>
      intro i x
      simp only [pushesFor, List.length_append, ih, List.count_cons]
      by_cases h : x = a
      · simp [h, Nat.add_comm]
      · simp [h, Ne.symm h]

/-- `popArgs` pops `x`'s stack once per occurrence of `x` among the names. -/
theorem popArgs_apply (names : List String) :
    ∀ (M : IdentMap) (x : String), popArgs names M x = popN (names.count x) (M x) := by
  induction names with
  | nil => intro M x; simp [popArgs, popN]
  | cons a rest ih =>
      intro M x
      simp only [popArgs, ih]
      by_cases h : x = a
      · subst h
        simp [IdentMap.pop, List.count_cons, popN]
      · simp [IdentMap.pop, h, List.count_cons]

/-- After `FuncDef::codegen`, every name's stack in the identifier map is exactly what
it was before: the parameter pushes are all popped. -/
theorem funcDef_codegen_map (fd : FuncDef) (m : IdentMap) (x : String) :
    (fd.codegen m).2 x = m x := by
  show popArgs fd.proto.argNames (bindArgs fd.proto.name fd.proto.argNames 0 m) x = m x
  rw [popArgs_apply, bindArgs_apply,
    ← pushesFor_length fd.proto.name fd.proto.argNames 0 x, popN_append]

/-- Lowering a block ending in `e` lowers the prefix, then returns exactly the result
of lowering `e` from the state the prefix left behind. -/
theorem codegenBlock_concat (m : IdentMap) (es : List Expr) :
    ∀ (e : Expr) (v : Option Value) (st : FuncContext),
      Expr.codegenBlock m (es ++ [e]) v st = Expr.codegen m e (Expr.codegenList m es st).2 := by
  induction es with
  | nil =>
      intro e v st
      simp [Expr.codegenBlock, Expr.codegenList]
  | cons a rest ih =>
      intro e v st
      simp only [List.cons_append, Expr.codegenBlock, Expr.codegenList]
      exact ih e _ _

/-- A prototype that phase 1 accepts is the function value named after the proto. -/
theorem codegenProto_ok (proto : FuncProto) (v : Value)
    (h : codegenProto proto = .ok v) : v = Value.func proto.name := by
  simp only [codegenProto] at h
  split at h
  · cases h
  · split at h
    · cases h
    · cases h; rfl

/-- Phase 1 never removes a binding: values present in the map stay present. -/
theorem declareProtos_mono (fns : List FuncDef) :
    ∀ (m0 m : IdentMap), declareProtos fns m0 = .ok m →
      ∀ (x : String) (v : Value), v ∈ m0 x → v ∈ m x := by
  induction fns with
  | nil =>
      intro m0 m h x v hv
      simp only [declareProtos] at h
      cases h
      exact hv
  | cons fd fds ih =>
      intro m0 m h x v hv
      simp only [declareProtos] at h
      split at h
      · cases h
      · refine ih _ _ h x v ?_
        simp only [IdentMap.push]
        by_cases hx : x = fd.proto.name
        · subst hx
          simp only [if_pos rfl]
          exact List.mem_append_left _ hv
        · simpa [hx] using hv

/-- After phase 1 succeeds, every function of the list has its prototype bound on its
name's stack in the resulting map. -/
theorem declareProtos_binds (fns : List FuncDef) :
    ∀ (m0 m : IdentMap), declareProtos fns m0 = .ok m →
      ∀ fd ∈ fns, Value.func fd.proto.name ∈ m fd.proto.name := by
  induction fns with
  | nil =>
      intro m0 m _ fd hfd
      cases hfd
  | cons g gs ih =>
      intro m0 m h fd hfd
      simp only [declareProtos] at h
      split at h
      · cases h
      · rename_i llfunc heq
        rcases List.mem_cons.mp hfd with rfl | hmem
        · have hv := codegenProto_ok _ _ heq
          subst hv
          refine declareProtos_mono gs _ _ h _ _ ?_
          simp [IdentMap.push]
        · exact ih _ _ h fd hmem

/-! ### Concrete fixtures used by the theorems below -/

/-- A prototype with no parameters returning `i32`. -/
def protoI32 (nm : String) : FuncProto := ⟨nm, [], [], .typeName "i32"⟩

/-- A module in which function `A` calls function `B`, and `B` is defined after `A`. -/
def modAB : Module :=
  ⟨[⟨protoI32 "A", .call (.var "B") []⟩, ⟨protoI32 "B", .intE 7⟩]⟩

/-- The identifier map produced by the declare phase on `modAB`. -/
def mAB : IdentMap := (IdentMap.empty.push "A" (.func "A")).push "B" (.func "B")

/-- A parameterless function whose body references the unbound name `u`. -/
def fdFail : FuncDef := ⟨⟨"f", [], [], .typeName "i32"⟩, .var "u"⟩

/-- A parameterless function whose body is the literal 5. -/
def fdOk : FuncDef := ⟨⟨"g", [], [], .typeName "i32"⟩, .intE 5⟩

/-- A map in which `x` was bound twice, the binding to `Value.func "b"` most recent. -/
def mShadow : IdentMap := (IdentMap.empty.push "x" (.func "a")).push "x" (.func "b")

/-! ### Claim theorems -/

/-- Claim C1: for every function definition whose body lowering yields a missing
value, `FuncDef::codegen` propagates the failure (the emitted return carries no value)
and still unwinds the parameter bindings; a return instruction carrying the body's
result is emitted exactly when body lowering succeeds. -/
theorem funcDef_failure_propagation (fd : FuncDef) (m : IdentMap) :
    ((Expr.codegen (bindArgs fd.proto.name fd.proto.argNames 0 m) fd.body ⟨[], 0⟩).1 = none →
      (fd.codegen m).1.body.getLast? = some (Instr.ret none) ∧
      ∀ x, (fd.codegen m).2 x = m x) ∧
    (∀ v,
      (Expr.codegen (bindArgs fd.proto.name fd.proto.argNames 0 m) fd.body ⟨[], 0⟩).1 = some v →
      (fd.codegen m).1.body.getLast? = some (Instr.ret (some v))) := by
  constructor
  · intro h
    refine ⟨?_, funcDef_codegen_map fd m⟩
    simp [FuncDef.codegen, h, List.getLast?_concat]
  · intro v h
    simp [FuncDef.codegen, h, List.getLast?_concat]

/-- The failure-propagation theorem at a body with an unbound variable (failure) and
at a literal body (success). -/
theorem funcDef_failure_propagation_witness :
    ((fdFail.codegen IdentMap.empty).1.body.getLast? = some (Instr.ret none) ∧
      (fdFail.codegen IdentMap.empty).2 "u" = IdentMap.empty "u") ∧
    (fdOk.codegen IdentMap.empty).1.body.getLast? =
      some (Instr.ret (some (Value.constInt 32 5))) := by
  refine ⟨?_, ?_⟩
  · have h := (funcDef_failure_propagation fdFail IdentMap.empty).1 rfl
    exact ⟨h.1, h.2 "u"⟩
  · exact (funcDef_failure_propagation fdOk IdentMap.empty).2 (Value.constInt 32 5) rfl

/-- Claim C2: lowering `IntLiteral(n)` yields a 32-bit constant whose value is
`n mod 2^32`, for every integer `n`, in any identifier map and block state (there is
no contextual expected type to influence it). -/
theorem intLiteral_lowering (n : Int) (m : IdentMap) (st : FuncContext) :
    Expr.codegen m (.intE n) st = (some (Value.constInt 32 (n % 2 ^ 32).toNat), st) := by
  simp [Expr.codegen, apIntVal_32_eq]

/-- Claim C3: when both operands of a BinOp lower successfully (rhs lowered from the
state the lhs left behind), the lowerer emits exactly one instruction selected by the
operator, with the lowered lhs and rhs as operands in that order. -/
theorem binOp_dispatch (l r : Expr) (m : IdentMap) (st st1 st2 : FuncContext)
    (lv rv : Value)
    (h1 : Expr.codegen m l st = (some lv, st1))
    (h2 : Expr.codegen m r st1 = (some rv, st2)) :
    Expr.codegen m (.binOp "+" l r) st =
      (some (Value.inst st2.nextId),
        ⟨st2.currentBlock ++ [Instr.binop .add lv rv st2.nextId], st2.nextId + 1⟩) ∧
    Expr.codegen m (.binOp "-" l r) st =
      (some (Value.inst st2.nextId),
        ⟨st2.currentBlock ++ [Instr.binop .sub lv rv st2.nextId], st2.nextId + 1⟩) ∧
    Expr.codegen m (.binOp "*" l r) st =
      (some (Value.inst st2.nextId),
        ⟨st2.currentBlock ++ [Instr.binop .mul lv rv st2.nextId], st2.nextId + 1⟩) ∧
    Expr.codegen m (.binOp "/" l r) st =
      (some (Value.inst st2.nextId),
        ⟨st2.currentBlock ++ [Instr.binop .sdiv lv rv st2.nextId], st2.nextId + 1⟩) := by
  refine ⟨?_, ?_, ?_, ?_⟩ <;> simp [Expr.codegen, h1, h2, FuncContext.emit]

/-- The dispatch theorem at the concrete operands 1 and 2. -/
theorem binOp_dispatch_witness :
    Expr.codegen IdentMap.empty (.binOp "+" (.intE 1) (.intE 2)) ⟨[], 0⟩ =
      (some (Value.inst 0),
        ⟨[Instr.binop .add (Value.constInt 32 1) (Value.constInt 32 2) 0], 1⟩) ∧
    Expr.codegen IdentMap.empty (.binOp "-" (.intE 1) (.intE 2)) ⟨[], 0⟩ =
      (some (Value.inst 0),
        ⟨[Instr.binop .sub (Value.constInt 32 1) (Value.constInt 32 2) 0], 1⟩) ∧
    Expr.codegen IdentMap.empty (.binOp "*" (.intE 1) (.intE 2)) ⟨[], 0⟩ =
      (some (Value.inst 0),
        ⟨[Instr.binop .mul (Value.constInt 32 1) (Value.constInt 32 2) 0], 1⟩) ∧
    Expr.codegen IdentMap.empty (.binOp "/" (.intE 1) (.intE 2)) ⟨[], 0⟩ =
      (some (Value.inst 0),
        ⟨[Instr.binop .sdiv (Value.constInt 32 1) (Value.constInt 32 2) 0], 1⟩) :=
  binOp_dispatch (.intE 1) (.intE 2) IdentMap.empty ⟨[], 0⟩ ⟨[], 0⟩ ⟨[], 0⟩
    (Value.constInt 32 1) (Value.constInt 32 2) rfl rfl

/-- Claim C4: when either operand of a BinOp lowers to a missing value, or the
operator is not one of `+ - * /`, the BinOp yields a missing value and the block is
exactly the state left by lowering the operands: no instruction is emitted for the
BinOp itself. -/
theorem binOp_failure (op : String) (l r : Expr) (m : IdentMap)
    (st st1 st2 : FuncContext) (lv rv : Option Value)
    (h1 : Expr.codegen m l st = (lv, st1))
    (h2 : Expr.codegen m r st1 = (rv, st2))
    (h : lv = none ∨ rv = none ∨ (op ≠ "+" ∧ op ≠ "-" ∧ op ≠ "*" ∧ op ≠ "/")) :
    Expr.codegen m (.binOp op l r) st = (none, st2) := by
  rcases h with h | h | ⟨hp, hm, ht, hd⟩
  · subst h
    cases rv <;> simp [Expr.codegen, h1, h2]
  · subst h
    cases lv <;> simp [Expr.codegen, h1, h2]
  · cases lv with
    | none => simp [Expr.codegen, h1, h2]
    | some left =>
      cases rv with
      | none => simp [Expr.codegen, h1, h2]
      | some right => simp [Expr.codegen, h1, h2, hp, hm, ht, hd]

/-- The failure theorem at the unsupported operator `%`. -/
theorem binOp_failure_witness :
    Expr.codegen IdentMap.empty (.binOp "%" (.intE 1) (.intE 2)) ⟨[], 0⟩ =
      (none, ⟨[], 0⟩) :=
  binOp_failure "%" (.intE 1) (.intE 2) IdentMap.empty ⟨[], 0⟩ ⟨[], 0⟩ ⟨[], 0⟩
    (some (Value.constInt 32 1)) (some (Value.constInt 32 2)) rfl rfl
    (Or.inr (Or.inr (by decide)))

/-- Claim C5: a VarRef whose name has an empty (or absent) binding stack lowers to a
missing value, leaving the state untouched; a bound name lowers to the most recent
(top-of-stack) binding. -/
theorem varRef_lookup (name : String) (m : IdentMap) (st : FuncContext) :
    (m name = [] → Expr.codegen m (.var name) st = (none, st)) ∧
    (∀ (vs : List Value) (v : Value), m name = vs ++ [v] →
      Expr.codegen m (.var name) st = (some v, st)) := by
  constructor
  · intro h
    simp [Expr.codegen, h]
  · intro vs v h
    simp [Expr.codegen, h, List.getLast?_concat]

/-- The VarRef theorem on a map where `x` is bound twice and `y` not at all. -/
theorem varRef_lookup_witness :
    Expr.codegen mShadow (.var "x") ⟨[], 0⟩ = (some (Value.func "b"), ⟨[], 0⟩) ∧
    Expr.codegen mShadow (.var "y") ⟨[], 0⟩ = (none, ⟨[], 0⟩) :=
  ⟨(varRef_lookup "x" mShadow ⟨[], 0⟩).2 [Value.func "a"] (Value.func "b") rfl,
   (varRef_lookup "y" mShadow ⟨[], 0⟩).1 rfl⟩

/-- Claim C6: an empty Block lowers to the default 32-bit zero constant (not a
failure); a non-empty Block lowers its sub-expressions in order and its result is
exactly the result of lowering its last sub-expression from the state the prefix
left behind. -/
theorem block_lowering (m : IdentMap) (st : FuncContext) :
    Expr.codegen m (.block []) st = (some (Value.constInt 32 0), st) ∧
    ∀ (es : List Expr) (e : Expr),
      Expr.codegen m (.block (es ++ [e])) st =
        Expr.codegen m e (Expr.codegenList m es st).2 := by
  have h0 : apIntVal 32 0 = 0 := by decide
  constructor
  · simp [Expr.codegen, Expr.codegenBlock, h0]
  · intro es e
    have h := codegenBlock_concat m es e (some (Value.constInt 32 (apIntVal 32 0))) st
    simpa [Expr.codegen] using h

/-- Claim C7: the type resolver maps `i8`/`i16`/`i32`/`i64` to signed integer types
of widths 8/16/32/64, maps the unit type syntax to Unit, and fails on every other
token, carrying that token. -/
theorem getType_resolution :
    getType (.typeName "i8") = .ok (.int 8 true) ∧
    getType (.typeName "i16") = .ok (.int 16 true) ∧
    getType (.typeName "i32") = .ok (.int 32 true) ∧
    getType (.typeName "i64") = .ok (.int 64 true) ∧
    getType .unitType = .ok .unit ∧
    ∀ s : String, s ≠ "i8" → s ≠ "i16" → s ≠ "i32" → s ≠ "i64" →
      getType (.typeName s) = .error s := by
  refine ⟨rfl, rfl, rfl, rfl, rfl, ?_⟩
  intro s h8 h16 h32 h64
  simp [getType, h8, h16, h32, h64]

/-- The type-resolution theorem at `i8` and at the unknown token `foo`. -/
theorem getType_resolution_witness :
    getType (.typeName "i8") = .ok (.int 8 true) ∧
    getType (.typeName "foo") = .error "foo" :=
  ⟨getType_resolution.1,
   getType_resolution.2.2.2.2.2 "foo" (by decide) (by decide) (by decide) (by decide)⟩

/-- Claim C8: module lowering is two-phase: the declare phase binds every function's
prototype in the scope map before any body is lowered (bodies are lowered only from
the fully populated map), so the module in which `A` calls `B` defined after `A`
lowers successfully, `A`'s call referring to `B`. -/
theorem module_two_phase :
    (∀ (fns : List FuncDef) (m : IdentMap),
        declareProtos fns IdentMap.empty = .ok m →
        ∀ fd ∈ fns, Value.func fd.proto.name ∈ m fd.proto.name) ∧
    (∀ (mod : Module) (m : IdentMap),
        declareProtos mod.functions IdentMap.empty = .ok m →
        Module.codegen mod = .ok (lowerBodies mod.functions m).1) ∧
    Module.codegen modAB =
      .ok [⟨"A", [.call (some (.func "B")) [] 0, .ret (some (.inst 0))]⟩,
           ⟨"B", [.ret (some (.constInt 32 7))]⟩] := by
  refine ⟨fun fns m h => declareProtos_binds fns IdentMap.empty m h, ?_, rfl⟩
  intro mod m h
  simp [Module.codegen, h]

/-- The two-phase theorem at the forward-reference module `modAB`. -/
theorem module_two_phase_witness :
    Value.func "A" ∈ mAB "A" ∧
    Module.codegen modAB = .ok (lowerBodies modAB.functions mAB).1 := by
  constructor
  · exact module_two_phase.1 modAB.functions mAB rfl
      ⟨protoI32 "A", .call (.var "B") []⟩ (List.mem_cons_self _ _)
  · exact module_two_phase.2.1 modAB mAB rfl

/-- Claim C10: lowering a Call never propagates failure: its result is always a fresh
instruction value, and a call instruction is emitted carrying the (possibly missing)
lowered callee and the (possibly missing) lowered arguments, even when some of those
are missing. -/
theorem call_no_failure_propagation (f : Expr) (args : List Expr) (m : IdentMap)
    (st : FuncContext) :
    (Expr.codegen m (.call f args) st).1 =
      some (Value.inst (Expr.codegenList m args (Expr.codegen m f st).2).2.nextId) ∧
    (Expr.codegen m (.call f args) st).2.currentBlock =
      (Expr.codegenList m args (Expr.codegen m f st).2).2.currentBlock ++
        [Instr.call (Expr.codegen m f st).1
          (Expr.codegenList m args (Expr.codegen m f st).2).1
          (Expr.codegenList m args (Expr.codegen m f st).2).2.nextId] := by
  constructor <;> simp [Expr.codegen, FuncContext.emit]

/-- Claim C9: after `FuncDef::codegen` completes, the scope is restored exactly: every
name's stack, and hence every lookup, is what it was before the function was lowered,
module-level bindings included. -/
theorem funcDef_scope_restored (fd : FuncDef) (m : IdentMap) (x : String) :
    (fd.codegen m).2 x = m x ∧
    IdentMap.lookup ((fd.codegen m).2) x = IdentMap.lookup m x := by
  refine ⟨funcDef_codegen_map fd m x, ?_⟩
  unfold IdentMap.lookup
  rw [funcDef_codegen_map]

end Fiddle
